import Mathlib

/-!
# Verification of the envvars-scan value-resolution core

A shallow embedding of the scanner core of `envvars-scan`:
the dotenv scanner, the Spring-placeholder property scanner, the three
Kubernetes manifest sub-scanners (workload `env:`, ConfigMap `data:`,
Secret `data:`/`stringData:`), the reconciliation (dedup) engine and the
comparison engine.  Strings are modelled as `List Char` (the code is
line-oriented over JavaScript strings); every definition mirrors the
corresponding TypeScript function line by line.
-/

set_option maxRecDepth 10000

namespace EnvScan

/-- JavaScript strings, modelled as lists of characters. -/
abbrev Str := List Char

/-- Coerce a Lean string literal into the `Str` model. -/
def str (s : String) : Str := s.data

/-- The `{` character (written via its code point). -/
def lbrace : Char := Char.ofNat 123

/-- The `}` character (written via its code point). -/
def rbrace : Char := Char.ofNat 125

/-- JS `s.startsWith(p)` on our string model. -/
def strStartsWith : Str → Str → Bool
  | _, [] => true
  | [], _ :: _ => false
  | c :: cs, p :: ps => c = p && strStartsWith cs ps

/-- JS `s.trimStart()`: drop leading whitespace. -/
def trimStart (s : Str) : Str := s.dropWhile Char.isWhitespace

/-- JS `s.trim()`: drop leading and trailing whitespace. -/
def jsTrim (s : Str) : Str :=
  ((s.dropWhile Char.isWhitespace).reverse.dropWhile Char.isWhitespace).reverse

/-- Does the (trimmed) value start and end with a matching single or
double quote?  Mirrors the repeated TS test
`(v.startsWith('"') && v.endsWith('"')) || (v.startsWith("'") && v.endsWith("'"))`. -/
def isQuotedPair (v : Str) : Bool :=
  (strStartsWith v (str "\"") && strStartsWith v.reverse (str "\"")) ||
  (strStartsWith v (str "\x27") && strStartsWith v.reverse (str "\x27"))

/-- JS `v.slice(1, -1)`: drop the first and last character. -/
def sliceEnds (v : Str) : Str := (v.drop 1).dropLast

/-- A character allowed after the first in an env-var name: `[A-Z0-9_]`. -/
def isNameChar (c : Char) : Bool := c.isUpper || c.isDigit || c = '_'

/-- Match the leading `[A-Z][A-Z0-9_]*` of `s`, returning the name and the
rest of the string. -/
def takeName : Str → Option (Str × Str)
  | [] => none
  | c :: cs =>
    if c.isUpper then some (c :: cs.takeWhile isNameChar, cs.dropWhile isNameChar)
    else none

/-! ## Data model (`src/types.ts`) -/

/-- Provenance tags for a resolved value (`ValueSource` in `types.ts`). -/
inductive ValueSource where
  | codeDefault
  | dotenv
  | dockerfileEnv
  | dockerfileArg
  | k8sDeployment
  | k8sConfigmap
  | k8sSecret
  | dockerCompose
  | properties
deriving DecidableEq, Repr

/-- One occurrence record (`EnvVar` in `types.ts`).  Optional TS fields are
`Option`s; an omitted or `undefined` field is `none`. -/
structure EnvVar where
  name : Str
  file : Str
  line : Nat
  language : Str
  pattern : Str
  value : Option Str := none
  valueSource : Option ValueSource := none
  isDefault : Option Bool := none
deriving DecidableEq, Repr

/-- A scan run's aggregate (`ScanResult` in `types.ts`). -/
structure ScanResult where
  path : Str
  envVars : List EnvVar
  errors : List Str
deriving DecidableEq, Repr

/-- Output of the compare subcommand (`CompareResult` in `cli.ts`). -/
structure CompareResult where
  added : List Str
  removed : List Str
  unchanged : List Str
deriving DecidableEq, Repr

/-! ## Dotenv scanner (`property-scanner.ts`: `parseEnvValue`, `scanDotEnvFile`) -/

/-- `parseEnvValue` from `property-scanner.ts`: trim, strip a matching quote
pair from the trimmed value, then — only when the *untrimmed* raw value does
not itself begin with a quote — truncate at the first `#` at positive index
and trim again. -/
def parseEnvValue (rawValue : Str) : Str :=
  let value := jsTrim rawValue
  let value := if isQuotedPair value then sliceEnds value else value
  if !(strStartsWith rawValue (str "\"")) && !(strStartsWith rawValue (str "\x27")) then
    match value.findIdx? (· = '#') with
    | some i => if 0 < i then jsTrim (value.take i) else value
    | none => value
  else value

/-- The regex `^(?:export\s+)?([A-Z][A-Z0-9_]*)=(.*)$` applied to a trimmed
line: returns the captured name and raw value. -/
def matchEnvLine (line : Str) : Option (Str × Str) :=
  let core : Str → Option (Str × Str) := fun s =>
    match takeName s with
    | some (nm, rest) =>
      match rest with
      | '=' :: v => some (nm, v)
      | _ => none
    | none => none
  if strStartsWith line (str "export") &&
     (match line.drop 6 with | c :: _ => c.isWhitespace | [] => false) then
    match core ((line.drop 6).dropWhile Char.isWhitespace) with
    | some r => some r
    | none => core line
  else core line

/-- The per-line loop of `scanDotEnvFile`, carrying the 0-based index. -/
def scanDotEnvLines (filePath : Str) : Nat → List Str → List EnvVar
  | _, [] => []
  | i, l :: ls =>
    let line := jsTrim l
    let rest := scanDotEnvLines filePath (i + 1) ls
    if strStartsWith line (str "#") || line.isEmpty then rest
    else
      match matchEnvLine line with
      | some (nm, raw) =>
        let value := parseEnvValue raw
        { name := nm, file := filePath, line := i + 1,
          language := str "dotenv", pattern := str "definition",
          value := if value.isEmpty then none else some value,
          valueSource := some ValueSource.dotenv } :: rest
      | none => rest

/-- `scanDotEnvFile` from `property-scanner.ts`, over already-read content. -/
def scanDotEnvFile (filePath content : Str) : List EnvVar :=
  scanDotEnvLines filePath 0 (content.splitOn '\n')

/-! ## Property/placeholder scanner (`property-scanner.ts`: `scanPropertyFile`)

The regex `\$\{([A-Z][A-Z0-9_]*)(?::([^}]*))?\}` executed repeatedly with the
`g` flag.  `phMatchAt` decides whether a match starts exactly at the head of
the string (returning name, optional default capture and the remainder after
the match); `findPH` advances one character on failure, like the regex
engine's scan loop. -/

/-- Try to match `${NAME}` or `${NAME:default}` at the very start of `s`.
The default capture `[^}]*` is the maximal run of non-`}` characters; the
match succeeds only when a closing `}` follows it (otherwise the regex
engine also fails the no-default alternative, since a `:` follows the name). -/
def phMatchAt (s : Str) : Option (Str × Option Str × Str) :=
  match s with
  | a :: b :: restAll =>
    if a = '$' ∧ b = lbrace then
      match takeName restAll with
      | some (nm, r1) =>
        match r1 with
        | d :: r2 =>
          if d = rbrace then some (nm, none, r2)
          else if d = ':' then
            match r2.dropWhile (· ≠ rbrace) with
            | _ :: r3 => some (nm, some (r2.takeWhile (· ≠ rbrace)), r3)
            | [] => none
          else none
        | [] => none
      | none => none
    else none
  | _ => none

theorem length_dropWhile_le (p : Char → Bool) :
    ∀ l : Str, (l.dropWhile p).length ≤ l.length := by
  intro l
  induction l with
  | nil => simp
  | cons c cs ih =>
    by_cases h : p c
    · rw [List.dropWhile_cons_of_pos h]
      simp only [List.length_cons]
      omega
    · rw [List.dropWhile_cons_of_neg h]

theorem takeName_rest_le {s nm r : Str} (h : takeName s = some (nm, r)) :
    r.length < s.length := by
  match s with
  | [] => simp [takeName] at h
  | c :: cs =>
    simp only [takeName] at h
    split at h
    · simp only [Option.some.injEq, Prod.mk.injEq] at h
      have := h.2
      subst this
      have := length_dropWhile_le isNameChar cs
      simp only [List.length_cons]
      omega
    · exact absurd h (by simp)

theorem phMatchAt_rest_lt {s : Str} {nm : Str} {d : Option Str} {r : Str}
    (h : phMatchAt s = some (nm, d, r)) : r.length < s.length := by
  match s with
  | [] => simp [phMatchAt] at h
  | [c] => simp [phMatchAt] at h
  | a :: b :: restAll =>
    simp only [phMatchAt] at h
    split at h
    case isFalse => exact absurd h (by simp)
    case isTrue =>
      match htn : takeName restAll with
      | none => rw [htn] at h; exact absurd h (by simp)
      | some (nm', r1) =>
        rw [htn] at h
        have hr1 : r1.length < restAll.length := takeName_rest_le htn
        match r1 with
        | [] => exact absurd h (by simp)
        | e :: r2 =>
          simp only at h
          split at h
          · simp only [Option.some.injEq, Prod.mk.injEq] at h
            obtain ⟨-, -, hr⟩ := h
            subst hr
            simp only [List.length_cons] at hr1 ⊢
            omega
          · split at h
            · have hdw : (r2.dropWhile (· ≠ rbrace)).length ≤ r2.length :=
                length_dropWhile_le (· ≠ rbrace) r2
              match hm : r2.dropWhile (· ≠ rbrace) with
              | [] => rw [hm] at h; exact absurd h (by simp)
              | b2 :: r3 =>
                rw [hm] at h
                simp only [Option.some.injEq, Prod.mk.injEq] at h
                obtain ⟨-, -, hr⟩ := h
                subst hr
                rw [hm] at hdw
                simp only [List.length_cons] at hr1 hdw ⊢
                omega
            · exact absurd h (by simp)

/-- The regex-engine scan loop with explicit fuel: find all non-overlapping
matches left to right, advancing one character after a failed attempt.
Each step strictly shrinks the string (`phMatchAt_rest_lt`), so fuel
`s.length` is always sufficient. -/
def findPHFuel : Nat → Str → List (Str × Option Str)
  | _, [] => []
  | 0, _ :: _ => []
  | fuel + 1, c :: cs =>
    match phMatchAt (c :: cs) with
    | some (nm, d, rest) => (nm, d) :: findPHFuel fuel rest
    | none => findPHFuel fuel cs

/-- All regex matches of the placeholder pattern in one line. -/
def findPH (s : Str) : List (Str × Option Str) := findPHFuel s.length s

/-- The per-line loop of `scanPropertyFile`, carrying the 0-based index. -/
def scanPropertyLines (filePath : Str) : Nat → List Str → List EnvVar
  | _, [] => []
  | i, l :: ls =>
    ((findPH l).map fun m =>
      { name := m.1, file := filePath, line := i + 1,
        language := str "properties", pattern := str "spring.placeholder",
        value := m.2,
        valueSource :=
          match m.2 with
          | some dv => if dv.isEmpty then none else some ValueSource.properties
          | none => none,
        isDefault :=
          some (match m.2 with | some dv => !dv.isEmpty | none => false) })
      ++ scanPropertyLines filePath (i + 1) ls

/-- `scanPropertyFile` from `property-scanner.ts`, over already-read content. -/
def scanPropertyFile (filePath content : Str) : List EnvVar :=
  scanPropertyLines filePath 0 (content.splitOn '\n')

/-! ## Kubernetes manifest scanners (`k8s-scanner.ts`)

Low-level pieces shared by the three sub-scanners. -/

/-- The regex `^([A-Z][A-Z0-9_]*):\s*(.*)$`: a `KEY: value` entry; the
second capture is the rest of the line after the colon and any whitespace. -/
def kvMatch (t : Str) : Option (Str × Str) :=
  match takeName t with
  | some (nm, rest) =>
    match rest with
    | ':' :: r => some (nm, r.dropWhile Char.isWhitespace)
    | _ => none
  | none => none

/-- The regex `^-\s*name:\s*["']?([A-Z][A-Z0-9_]*)["']?` applied to a trimmed
`- name:` line of a workload `env:` block. -/
def wlNameMatch (t : Str) : Option Str :=
  match t with
  | '-' :: rest =>
    let r1 := rest.dropWhile Char.isWhitespace
    if strStartsWith r1 (str "name:") then
      let r2 := (r1.drop 5).dropWhile Char.isWhitespace
      let r2q := match r2 with
        | c :: r => if c = '"' || c = '\x27' then r else r2
        | [] => r2
      (takeName r2q).map (·.1)
    else none
  | _ => none

/-- The regex `^value:\s*["']?([^"'\n]*)["']?` applied to the trimmed line
following a `- name:` entry. -/
def wlValueMatch (t : Str) : Option Str :=
  if strStartsWith t (str "value:") then
    let r := (t.drop 6).dropWhile Char.isWhitespace
    let rq := match r with
      | c :: rr => if c = '"' || c = '\x27' then rr else r
      | [] => r
    some (rq.takeWhile fun c => c ≠ '"' && c ≠ '\x27')
  else none

/-- State of the `scanK8sWorkload` loop: whether we are inside an `env:`
section and at which indentation it was opened. -/
structure WLState where
  inEnv : Bool
  currentIndent : Nat
deriving DecidableEq, Repr

/-- The per-line state transition of `scanK8sWorkload`: a line whose trimmed
content starts with `env:` opens a section at its indent; otherwise, inside a
section, any line (blank and comment lines included) at same-or-lesser indent
that is not `-`-prefixed closes it. -/
def wlNextState (st : WLState) (l : Str) : WLState :=
  let t := trimStart l
  let indent := l.length - t.length
  if strStartsWith t (str "env:") then ⟨true, indent⟩
  else if st.inEnv && decide (indent ≤ st.currentIndent) &&
      !(strStartsWith t (str "-")) then
    ⟨false, st.currentIndent⟩
  else st

/-- The loop body of `scanK8sWorkload`: per line, update the section state
and parse `- name:` entries (with the value looked up on the immediately
following line); an `env:` line itself is consumed by `continue`. -/
def wlGo (file kindPattern : Str) (lineOffset : Nat) :
    Nat → WLState → List Str → List EnvVar
  | _, _, [] => []
  | i, st, l :: ls =>
    let t := trimStart l
    let st := wlNextState st l
    let here : List EnvVar :=
      if strStartsWith t (str "env:") then []
      else if st.inEnv && strStartsWith t (str "- name:") then
        match wlNameMatch t with
        | some nm =>
          let v0 : Option Str :=
            match ls with
            | nxt :: _ => wlValueMatch (jsTrim nxt)
            | [] => none
          let vOpt : Option Str :=
            match v0 with
            | some v => if v.isEmpty then none else some v
            | none => none
          [{ name := nm, file := file, line := lineOffset + i + 1,
             language := str "kubernetes", pattern := kindPattern,
             value := vOpt,
             valueSource := vOpt.map fun _ => ValueSource.k8sDeployment }]
        | none => []
      else []
    here ++ wlGo file kindPattern lineOffset (i + 1) st ls

/-- Lower-case an ASCII string (JS `kind.toLowerCase()` on manifest kinds). -/
def toLowerStr (s : Str) : Str := s.map Char.toLower

/-- `scanK8sWorkload` from `k8s-scanner.ts`, over already-split content. -/
def scanK8sWorkload (content file kind : Str) (lineOffset : Nat := 0) :
    List EnvVar :=
  wlGo file (toLowerStr kind) lineOffset 0 ⟨false, 0⟩ (content.splitOn '\n')

/-- State of the `scanConfigMap` loop. -/
structure CMState where
  inData : Bool
  dataIndent : Nat
deriving DecidableEq, Repr

/-- Collect the trimmed continuation lines of a block-scalar value: lines
indented at least `expectedIndent` are kept, blank lines are skipped, and the
first shallower non-blank line stops the collection. -/
def cmCollect (expectedIndent : Nat) : List Str → List Str
  | [] => []
  | nxt :: rest =>
    let nt := trimStart nxt
    let ni := nxt.length - nt.length
    if decide (expectedIndent ≤ ni) && !nt.isEmpty then
      nt :: cmCollect expectedIndent rest
    else if nt.isEmpty then cmCollect expectedIndent rest
    else []

/-- Join collected block-scalar lines with newlines (the JS
`multilineValue += (multilineValue ? '\n' : '') + nextTrimmed`). -/
def joinNl (ls : List Str) : Str := List.intercalate (str "\n") ls

/-- Is the (quote-stripped) value a block-scalar introducer `|`, `>`, `|-`
or `>-`? -/
def isBlockScalar (v : Str) : Bool :=
  v = str "|" || v = str ">" || v = str "|-" || v = str ">-"

/-- The per-line state transition of `scanConfigMap`: a line whose trimmed
content starts with `data:` opens the section at its indent; otherwise,
inside the section, a *non-blank, non-comment* line at same-or-lesser indent
closes it (blank and `#`-comment lines never do). -/
def cmNextState (st : CMState) (l : Str) : CMState :=
  let t := trimStart l
  let indent := l.length - t.length
  if strStartsWith t (str "data:") then ⟨true, indent⟩
  else if st.inData && decide (indent ≤ st.dataIndent) && !t.isEmpty &&
      !(strStartsWith t (str "#")) then
    ⟨false, st.dataIndent⟩
  else st

/-- The loop body of `scanConfigMap`: per line, update the section state and
record each `KEY: value` entry, expanding block scalars from the following
lines; a `data:` line itself is consumed by `continue`. -/
def cmGo (file : Str) (lineOffset : Nat) :
    Nat → CMState → List Str → List EnvVar
  | _, _, [] => []
  | i, st, l :: ls =>
    let t := trimStart l
    let indent := l.length - t.length
    let st := cmNextState st l
    let here : List EnvVar :=
      if strStartsWith t (str "data:") then []
      else if st.inData && !t.isEmpty && !(strStartsWith t (str "#")) then
        match kvMatch t with
        | some (nm, v0) =>
          let v1 := jsTrim v0
          let v2 := if isQuotedPair v1 then sliceEnds v1 else v1
          let vOpt : Option Str :=
            if isBlockScalar v2 then
              let m := joinNl (cmCollect (indent + 2) ls)
              if m.isEmpty then none else some m
            else if v2.isEmpty then none else some v2
          [{ name := nm, file := file, line := lineOffset + i + 1,
             language := str "kubernetes", pattern := str "configmap",
             value := vOpt,
             valueSource := vOpt.map fun _ => ValueSource.k8sConfigmap }]
        | none => []
      else []
    here ++ cmGo file lineOffset (i + 1) st ls

/-- `scanConfigMap` from `k8s-scanner.ts`, over already-split content. -/
def scanConfigMap (content file : Str) (lineOffset : Nat := 0) : List EnvVar :=
  cmGo file lineOffset 0 ⟨false, 0⟩ (content.splitOn '\n')

/-! ### Base64 decoding

`scanSecret` decodes `data:` values with
`Buffer.from(value, 'base64').toString('utf-8')` inside a `try`/`catch`.
Both Node operations are *total*: `Buffer.from` with the `base64` encoding
never throws — it skips characters outside the base64 alphabet, stops at
the first `=` padding character, and truncates a trailing partial group
(3/2/1 leftover characters give 2/1/0 bytes) — and `toString('utf-8')`
never throws either, substituting the replacement character `U+FFFD` for
malformed byte sequences.  The `catch` branch of the source is therefore
unreachable, and the model below is a total function. -/

/-- The value of one base64 alphabet character; Node accepts the URL-safe
alphabet (`-`, `_`) alongside the standard one.  `none` for every other
character — Node skips those while decoding. -/
def b64Val (c : Char) : Option Nat :=
  if 'A' ≤ c ∧ c ≤ 'Z' then some (c.toNat - 65)
  else if 'a' ≤ c ∧ c ≤ 'z' then some (c.toNat - 97 + 26)
  else if '0' ≤ c ∧ c ≤ '9' then some (c.toNat - 48 + 52)
  else if c = '+' ∨ c = '-' then some 62
  else if c = '/' ∨ c = '_' then some 63
  else none

/-- Regroup a list of 6-bit base64 digit values into bytes: every full
quadruple gives three bytes and a trailing partial group of 3/2/1 digits
gives 2/1/0 bytes (Node truncates incomplete groups instead of failing). -/
def b64GroupBytes : List Nat → List Nat
  | a :: b :: c :: d :: rest =>
    (a * 4 + b / 16) :: ((b % 16) * 16 + c / 4) :: ((c % 4) * 64 + d) ::
      b64GroupBytes rest
  | [a, b, c] => [a * 4 + b / 16, (b % 16) * 16 + c / 4]
  | [a, b] => [a * 4 + b / 16]
  | _ => []

/-- Node `Buffer.from(s, 'base64')`: decoding stops at the first `=`,
skips all other non-alphabet characters, and truncates a trailing partial
group.  Total — it never throws. -/
def nodeB64Decode (s : Str) : List Nat :=
  b64GroupBytes ((s.takeWhile (· ≠ '=')).filterMap b64Val)

/-- One step of the lenient (WHATWG-style) UTF-8 decoder used by
`toString('utf-8')`: decode one code point — or one replacement character
`U+FFFD` (65533) for a malformed sequence — from lead byte `b` and the
remaining bytes `bs`, returning the code point and the rest.  On a
malformed sequence only its maximal valid prefix is consumed and the
offending byte is left to be reprocessed. -/
def utf8LenientStep (b : Nat) (bs : List Nat) : Nat × List Nat :=
  if b < 128 then (b, bs)
  else if b < 194 then (65533, bs)
  else if b < 224 then
    match bs with
    | b2 :: r => if 128 ≤ b2 ∧ b2 < 192 then ((b - 192) * 64 + (b2 - 128), r)
        else (65533, bs)
    | [] => (65533, [])
  else if b < 240 then
    let lo := if b = 224 then 160 else 128
    let hi := if b = 237 then 159 else 191
    match bs with
    | b2 :: r2 =>
      if lo ≤ b2 ∧ b2 ≤ hi then
        match r2 with
        | b3 :: r3 =>
          if 128 ≤ b3 ∧ b3 < 192 then
            ((b - 224) * 4096 + (b2 - 128) * 64 + (b3 - 128), r3)
          else (65533, r2)
        | [] => (65533, [])
      else (65533, bs)
    | [] => (65533, [])
  else if b < 245 then
    let lo := if b = 240 then 144 else 128
    let hi := if b = 244 then 143 else 191
    match bs with
    | b2 :: r2 =>
      if lo ≤ b2 ∧ b2 ≤ hi then
        match r2 with
        | b3 :: r3 =>
          if 128 ≤ b3 ∧ b3 < 192 then
            match r3 with
            | b4 :: r4 =>
              if 128 ≤ b4 ∧ b4 < 192 then
                ((b - 240) * 262144 + (b2 - 128) * 4096 +
                  (b3 - 128) * 64 + (b4 - 128), r4)
              else (65533, r3)
            | [] => (65533, [])
          else (65533, r2)
        | [] => (65533, [])
      else (65533, bs)
    | [] => (65533, [])
  else (65533, bs)

/-- The lenient UTF-8 decoder with explicit fuel (each step consumes at
least the lead byte, so fuel `bs.length` is always enough).  Total. -/
def utf8LenientFuel : Nat → List Nat → Str
  | _, [] => []
  | 0, _ :: _ => []
  | fuel + 1, b :: bs =>
    let st := utf8LenientStep b bs
    Char.ofNat st.1 :: utf8LenientFuel fuel st.2

/-- Node `buffer.toString('utf-8')`: lenient UTF-8 decoding with `U+FFFD`
replacement characters.  Total — it never throws. -/
def utf8Lenient (bs : List Nat) : Str := utf8LenientFuel bs.length bs

/-- The modelled `Buffer.from(v, 'base64').toString('utf-8')`.  Total, so
the `try`/`catch` around it in `scanSecret` can never take the `catch`
path. -/
def nodeB64ToUtf8 (v : Str) : Str := utf8Lenient (nodeB64Decode v)

/-- State of the `scanSecret` loop: the two mutually exclusive section
flags plus the indentation at which the active section was opened. -/
structure SecState where
  inData : Bool
  inStringData : Bool
  dataIndent : Nat
deriving DecidableEq, Repr

/-- The occurrences contributed by one line of `scanSecret`, given the
post-transition state and the trimmed line: parse `KEY: value`, trim, strip
a quote pair, base64-decode in a `data:` section, and record the entry.
The source wraps the decode in `try`/`catch` with the comment `Keep as-is
if decode fails`, but the decode (`nodeB64ToUtf8`) is total, so the
`catch` branch is dead code and is not part of the model. -/
def secEmit (file : Str) (lineNo : Nat) (st : SecState) (t : Str) :
    List EnvVar :=
  if (st.inData || st.inStringData) && !t.isEmpty &&
     !(strStartsWith t (str "#")) then
    match kvMatch t with
    | some (nm, v0) =>
      let v1 := jsTrim v0
      let v2 := if isQuotedPair v1 then sliceEnds v1 else v1
      let v3 :=
        if st.inData && !v2.isEmpty then nodeB64ToUtf8 v2 else v2
      [{ name := nm, file := file, line := lineNo,
         language := str "kubernetes", pattern := str "secret",
         value := if v3.isEmpty then none else some v3,
         valueSource :=
           if v3.isEmpty then none else some ValueSource.k8sSecret }]
    | none => []
  else []

/-- The per-line state transition of `scanSecret`: `data:` / `stringData:`
lines open their section at the line's indent (closing the other section);
otherwise, inside either section, a *non-blank, non-comment* line at
same-or-lesser indent closes both (blank and `#`-comment lines never do). -/
def secNextState (st : SecState) (l : Str) : SecState :=
  let t := trimStart l
  let indent := l.length - t.length
  if strStartsWith t (str "data:") then ⟨true, false, indent⟩
  else if strStartsWith t (str "stringData:") then ⟨false, true, indent⟩
  else if (st.inData || st.inStringData) && decide (indent ≤ st.dataIndent) &&
      !t.isEmpty && !(strStartsWith t (str "#")) then
    ⟨false, false, st.dataIndent⟩
  else st

/-- The loop body of `scanSecret`: per line, update the section state and
emit each entry via `secEmit`; a `data:`/`stringData:` line itself is
consumed by `continue`. -/
def secGo (file : Str) (lineOffset : Nat) :
    Nat → SecState → List Str → List EnvVar
  | _, _, [] => []
  | i, st, l :: ls =>
    let t := trimStart l
    let st := secNextState st l
    let here : List EnvVar :=
      if strStartsWith t (str "data:") || strStartsWith t (str "stringData:")
      then []
      else secEmit file (lineOffset + i + 1) st t
    here ++ secGo file lineOffset (i + 1) st ls

/-- `scanSecret` from `k8s-scanner.ts`, over already-split content. -/
def scanSecret (content file : Str) (lineOffset : Nat := 0) : List EnvVar :=
  secGo file lineOffset 0 ⟨false, false, 0⟩ (content.splitOn '\n')

/-! ## Reconciliation engine (`cli.ts`: `deduplicateResults`) -/

/-- Decimal rendering with fuel (`n + 1` digits are always enough). -/
def natToStrFuel : Nat → Nat → Str
  | 0, _ => []
  | fuel + 1, n =>
    if n < 10 then [Char.ofNat (48 + n)]
    else natToStrFuel fuel (n / 10) ++ [Char.ofNat (48 + n % 10)]

/-- Decimal rendering of a line number (JS template interpolation). -/
def natToStr (n : Nat) : Str := natToStrFuel (n + 1) n

/-- The dedup key `` `${ev.name}:${ev.file}:${ev.line}` ``. -/
def evKey (ev : EnvVar) : Str :=
  ev.name ++ ':' :: ev.file ++ ':' :: natToStr ev.line

/-- The loop of `deduplicateResults`: keep an occurrence only when its key
has not been seen yet. -/
def dedupGo : List Str → List EnvVar → List EnvVar
  | _, [] => []
  | seen, ev :: evs =>
    if evKey ev ∈ seen then dedupGo seen evs
    else ev :: dedupGo (evKey ev :: seen) evs

/-- `deduplicateResults` from `cli.ts`. -/
def deduplicateResults (result : ScanResult) : ScanResult :=
  { result with envVars := dedupGo [] result.envVars }

/-! ## Comparison engine (`cli.ts`: `runCompare`) -/

/-- Lexicographic `≤` on strings (JS default string comparison used by
`Array.prototype.sort`). -/
def lexLe : Str → Str → Bool
  | [], _ => true
  | _ :: _, [] => false
  | a :: as, b :: bs => if a < b then true else if b < a then false else lexLe as bs

/-- Insert into a `lexLe`-sorted list. -/
def insertL (a : Str) : List Str → List Str
  | [] => [a]
  | b :: bs => if lexLe a b then a :: b :: bs else b :: insertL a bs

/-- Sort a list of names lexicographically ascending (JS `.sort()`). -/
def sortL : List Str → List Str
  | [] => []
  | a :: as => insertL a (sortL as)

/-- First-occurrence deduplication of a name list (iterating a JS `Set`
built from the list preserves first-insertion order). -/
def dedupFirstAux : List Str → List Str → List Str
  | _, [] => []
  | seen, n :: ns =>
    if n ∈ seen then dedupFirstAux seen ns
    else n :: dedupFirstAux (n :: seen) ns

/-- The distinct names of a list, in first-occurrence order. -/
def dedupFirst (ns : List Str) : List Str := dedupFirstAux [] ns

/-- The comparison core of `runCompare` in `cli.ts` (after the two JSON
files are read): name-set difference/intersection, each output sorted. -/
def runCompare (base head : ScanResult) : CompareResult :=
  let baseNames := dedupFirst (base.envVars.map (·.name))
  let headNames := dedupFirst (head.envVars.map (·.name))
  { added := sortL (headNames.filter fun n => !decide (n ∈ baseNames))
    removed := sortL (baseNames.filter fun n => !decide (n ∈ headNames))
    unchanged := sortL (headNames.filter fun n => decide (n ∈ baseNames)) }

/-! ## Lemmas about the reconciliation engine -/

theorem dedupGo_sublist : ∀ (seen : List Str) (l : List EnvVar),
    (dedupGo seen l).Sublist l := by
  intro seen l
  induction l generalizing seen with
  | nil => simp [dedupGo]
  | cons c cs ih =>
    rw [dedupGo]
    split
    · exact (ih seen).cons c
    · exact (ih (evKey c :: seen)).cons₂ c

theorem dedupGo_keys_not_seen : ∀ (seen : List Str) (l : List EnvVar)
    (k : Str), k ∈ (dedupGo seen l).map evKey → k ∉ seen := by
  intro seen l
  induction l generalizing seen with
  | nil => simp [dedupGo]
  | cons c cs ih =>
    intro k hk
    rw [dedupGo] at hk
    split at hk
    · exact ih seen k hk
    · simp only [List.map_cons, List.mem_cons] at hk
      rcases hk with rfl | hk
      · assumption
      · have := ih (evKey c :: seen) k hk
        simp only [List.mem_cons] at this
        exact fun hs => this (Or.inr hs)

theorem dedupGo_keys_nodup : ∀ (seen : List Str) (l : List EnvVar),
    ((dedupGo seen l).map evKey).Nodup := by
  intro seen l
  induction l generalizing seen with
  | nil => simp [dedupGo]
  | cons c cs ih =>
    rw [dedupGo]
    split
    · exact ih seen
    · simp only [List.map_cons, List.nodup_cons]
      refine ⟨fun hmem => ?_, ih (evKey c :: seen)⟩
      have := dedupGo_keys_not_seen (evKey c :: seen) cs (evKey c) hmem
      simp at this

theorem dedupGo_mem_keys : ∀ (seen : List Str) (l : List EnvVar) (k : Str),
    k ∈ (dedupGo seen l).map evKey ↔ k ∈ l.map evKey ∧ k ∉ seen := by
  intro seen l
  induction l generalizing seen with
  | nil => simp [dedupGo]
  | cons c cs ih =>
    intro k
    rw [dedupGo]
    split
    case isTrue hin =>
      rw [ih seen k]
      simp only [List.map_cons, List.mem_cons]
      constructor
      · rintro ⟨hm, hns⟩; exact ⟨Or.inr hm, hns⟩
      · rintro ⟨hm | hm, hns⟩
        · subst hm; exact absurd hin hns
        · exact ⟨hm, hns⟩
    case isFalse hout =>
      simp only [List.map_cons, List.mem_cons, ih (evKey c :: seen) k]
      constructor
      · rintro (rfl | ⟨hm, hns⟩)
        · exact ⟨Or.inl rfl, hout⟩
        · simp only [List.mem_cons, not_or] at hns
          exact ⟨Or.inr hm, hns.2⟩
      · rintro ⟨hm | hm, hns⟩
        · exact Or.inl hm
        · by_cases hkc : k = evKey c
          · exact Or.inl hkc
          · refine Or.inr ⟨hm, ?_⟩
            simp only [List.mem_cons, not_or]
            exact ⟨hkc, hns⟩

theorem dedupGo_first : ∀ (seen : List Str) (l : List EnvVar) (ev : EnvVar),
    ev ∈ dedupGo seen l →
    l.find? (fun e => decide (evKey e = evKey ev)) = some ev := by
  intro seen l
  induction l generalizing seen with
  | nil => simp [dedupGo]
  | cons c cs ih =>
    intro ev hev
    rw [dedupGo] at hev
    split at hev
    case isTrue hin =>
      have hns : evKey ev ∉ seen :=
        dedupGo_keys_not_seen seen cs (evKey ev)
          (List.mem_map_of_mem evKey hev)
      have hne : ¬(evKey c = evKey ev) := fun h => hns (h ▸ hin)
      rw [List.find?_cons_of_neg _ (by simpa using hne)]
      exact ih seen ev hev
    case isFalse hout =>
      rcases (List.mem_cons).mp hev with rfl | hev
      · exact List.find?_cons_of_pos _ (by simp)
      · have hns : evKey ev ∉ evKey c :: seen :=
          dedupGo_keys_not_seen (evKey c :: seen) cs (evKey ev)
            (List.mem_map_of_mem evKey hev)
        have hne : ¬(evKey c = evKey ev) := by
          intro h
          exact hns (h ▸ List.mem_cons_self _ _)
        rw [List.find?_cons_of_neg _ (by simpa using hne)]
        exact ih (evKey c :: seen) ev hev

theorem dedupGo_idem : ∀ (seen : List Str) (l : List EnvVar),
    dedupGo seen (dedupGo seen l) = dedupGo seen l := by
  intro seen l
  induction l generalizing seen with
  | nil => simp [dedupGo]
  | cons c cs ih =>
    by_cases hin : evKey c ∈ seen
    · have h1 : dedupGo seen (c :: cs) = dedupGo seen cs := by
        rw [dedupGo, if_pos hin]
      rw [h1, ih]
    · have h1 : dedupGo seen (c :: cs) = c :: dedupGo (evKey c :: seen) cs := by
        rw [dedupGo, if_neg hin]
      have h2 : dedupGo seen (c :: dedupGo (evKey c :: seen) cs) =
          c :: dedupGo (evKey c :: seen) (dedupGo (evKey c :: seen) cs) := by
        rw [dedupGo, if_neg hin]
      rw [h1, h2, ih (evKey c :: seen)]

theorem dedupGo_mem_of_unique {l : List EnvVar}
    (hu : ∀ a ∈ l, ∀ b ∈ l, evKey a = evKey b → a = b) :
    ∀ (seen : List Str) (ev : EnvVar),
    ev ∈ dedupGo seen l ↔ ev ∈ l ∧ evKey ev ∉ seen := by
  induction l with
  | nil => simp [dedupGo]
  | cons c cs ih =>
    intro seen ev
    have hu' : ∀ a ∈ cs, ∀ b ∈ cs, evKey a = evKey b → a = b :=
      fun a ha b hb => hu a (List.mem_cons_of_mem c ha) b (List.mem_cons_of_mem c hb)
    rw [dedupGo]
    split
    case isTrue hin =>
      rw [ih hu' seen]
      simp only [List.mem_cons]
      constructor
      · rintro ⟨hm, hns⟩; exact ⟨Or.inr hm, hns⟩
      · rintro ⟨rfl | hm, hns⟩
        · exact absurd hin hns
        · exact ⟨hm, hns⟩
    case isFalse hout =>
      simp only [List.mem_cons, ih hu' (evKey c :: seen)]
      constructor
      · rintro (rfl | ⟨hm, hns⟩)
        · exact ⟨Or.inl rfl, hout⟩
        · simp only [List.mem_cons, not_or] at hns
          exact ⟨Or.inr hm, hns.2⟩
      · rintro ⟨rfl | hm, hns⟩
        · exact Or.inl rfl
        · by_cases hkc : evKey ev = evKey c
          · left
            exact hu ev (List.mem_cons_of_mem c hm) c (List.mem_cons_self c cs) hkc
          · refine Or.inr ⟨hm, ?_⟩
            simp only [List.mem_cons, not_or]
            exact ⟨hkc, hns⟩

/-! ## Concrete occurrences used by counterexamples and witnesses -/

/-- A valueless occurrence at position `API_KEY:file.js:5`. -/
def occNoValue : EnvVar :=
  { name := str "API_KEY", file := str "file.js", line := 5,
    language := str "javascript", pattern := str "env.access" }

/-- An occurrence at the same identity key carrying the value `"abc"`. -/
def occWithValue : EnvVar :=
  { occNoValue with
    value := some (str "abc")
    valueSource := some ValueSource.codeDefault }

/-! ## Claim C1 -/

/-- C1 counterexample: `deduplicateResults` keeps the *first* occurrence of
an identity key even when a later occurrence at the same key carries a
resolved value: with the valueless occurrence first, the reconciled set
retains the valueless one and drops the one with `value = "abc"` — the claim
says the occurrence carrying the value must be retained regardless of
order. -/
theorem C1_counterexample :
    evKey occNoValue = evKey occWithValue ∧
    occNoValue.value = none ∧
    occWithValue.value = some (str "abc") ∧
    (deduplicateResults
      { path := str "p", envVars := [occNoValue, occWithValue],
        errors := [] }).envVars = [occNoValue] := by
  refine ⟨by decide, by decide, by decide, by decide⟩

/-- C1 (amended): the Reconciliation Engine produces exactly one occurrence
per identity key (realized as the joined string `name:file:line`): the
output's keys are duplicate-free and cover exactly the input's keys, and
every retained occurrence is the *first* occurrence of its key in the input,
regardless of which duplicate carries a resolved value. -/
theorem C1_reconcile_first_wins (r : ScanResult) :
    ((deduplicateResults r).envVars.map evKey).Nodup ∧
    (∀ k, k ∈ r.envVars.map evKey ↔ k ∈ (deduplicateResults r).envVars.map evKey) ∧
    (∀ ev ∈ (deduplicateResults r).envVars,
      r.envVars.find? (fun e => decide (evKey e = evKey ev)) = some ev) := by
  refine ⟨dedupGo_keys_nodup [] r.envVars, ?_, ?_⟩
  · intro k
    rw [show (deduplicateResults r).envVars = dedupGo [] r.envVars from rfl,
      dedupGo_mem_keys]
    simp
  · intro ev hev
    exact dedupGo_first [] r.envVars ev hev

/-- C1 witness: the amended theorem applied to the concrete two-occurrence
result; the retained occurrence is the first one bearing its key. -/
theorem C1_reconcile_first_wins_witness :
    ([occNoValue, occWithValue].find?
      (fun e => decide (evKey e = evKey occNoValue))) = some occNoValue :=
  (C1_reconcile_first_wins
    { path := str "p", envVars := [occNoValue, occWithValue],
      errors := [] }).2.2 occNoValue (by decide)

/-! ## Claim C4 -/

/-- C4 counterexample: reconciliation is *not* independent of processing
order: permuting two occurrences that share an identity key but differ in
their value yields different canonical sets (`[occNoValue]` versus
`[occWithValue]`). -/
theorem C4_counterexample :
    List.Perm [occNoValue, occWithValue] [occWithValue, occNoValue] ∧
    (deduplicateResults
      { path := str "p", envVars := [occNoValue, occWithValue],
        errors := [] }).envVars = [occNoValue] ∧
    (deduplicateResults
      { path := str "p", envVars := [occWithValue, occNoValue],
        errors := [] }).envVars = [occWithValue] ∧
    occNoValue ≠ occWithValue := by
  exact ⟨List.Perm.swap occWithValue occNoValue [], by decide, by decide,
    by decide⟩

/-- C4 (amended): the Reconciliation Engine is order-independent on inputs
where occurrences sharing an identity key are equal: for every permutation
of such a list, the reconciled occurrence sets are permutations of each
other. -/
theorem C4_reconcile_perm (r r' : ScanResult)
    (hperm : r.envVars.Perm r'.envVars)
    (hu : ∀ a ∈ r.envVars, ∀ b ∈ r.envVars, evKey a = evKey b → a = b) :
    (deduplicateResults r).envVars.Perm (deduplicateResults r').envVars := by
  have hu' : ∀ a ∈ r'.envVars, ∀ b ∈ r'.envVars, evKey a = evKey b → a = b :=
    fun a ha b hb => hu a (hperm.mem_iff.mpr ha) b (hperm.mem_iff.mpr hb)
  have n1 : (dedupGo [] r.envVars).Nodup :=
    List.Nodup.of_map evKey (dedupGo_keys_nodup [] r.envVars)
  have n2 : (dedupGo [] r'.envVars).Nodup :=
    List.Nodup.of_map evKey (dedupGo_keys_nodup [] r'.envVars)
  rw [show (deduplicateResults r).envVars = dedupGo [] r.envVars from rfl,
    show (deduplicateResults r').envVars = dedupGo [] r'.envVars from rfl,
    List.perm_ext_iff_of_nodup n1 n2]
  intro a
  rw [dedupGo_mem_of_unique hu [], dedupGo_mem_of_unique hu' []]
  simp [hperm.mem_iff]

/-- C4 witness: the amended theorem applied to a concrete permutation of a
duplicate-free two-occurrence list. -/
theorem C4_reconcile_perm_witness :
    (deduplicateResults
      { path := str "p",
        envVars := [occNoValue, { occNoValue with name := str "OTHER_KEY" }],
        errors := [] }).envVars.Perm
    (deduplicateResults
      { path := str "p",
        envVars := [{ occNoValue with name := str "OTHER_KEY" }, occNoValue],
        errors := [] }).envVars :=
  C4_reconcile_perm _ _
    (List.Perm.swap { occNoValue with name := str "OTHER_KEY" } occNoValue [])
    (by decide)

/-! ## Claim C9 -/

/-- C9: the Reconciliation Engine is idempotent — deduplicating an
already-deduplicated scan result returns it unchanged. -/
theorem C9_dedup_idempotent (r : ScanResult) :
    deduplicateResults (deduplicateResults r) = deduplicateResults r := by
  cases r with
  | mk p evs errs => simp [deduplicateResults, dedupGo_idem]

/-! ## Claim C10 -/

/-- C10: deduplication only rewrites the `envVars` field: `path` and
`errors` are returned exactly, and the output occurrence list is a
subsequence of the input list (so every retained occurrence is an unmodified
element of the input). -/
theorem C10_dedup_frame (r : ScanResult) :
    (deduplicateResults r).path = r.path ∧
    (deduplicateResults r).errors = r.errors ∧
    (deduplicateResults r).envVars.Sublist r.envVars :=
  ⟨rfl, rfl, dedupGo_sublist [] r.envVars⟩

/-! ## Lemmas about the comparison engine -/

theorem lexLe_total : ∀ a b : Str, lexLe a b = true ∨ lexLe b a = true := by
  intro a
  induction a with
  | nil => intro b; left; rfl
  | cons x xs ih =>
    intro b
    cases b with
    | nil => right; rfl
    | cons y ys =>
      rcases lt_trichotomy x y with h | h | h
      · left; simp [lexLe, h]
      · subst h
        rcases ih ys with h2 | h2
        · left; simp [lexLe, lt_irrefl, h2]
        · right; simp [lexLe, lt_irrefl, h2]
      · right; simp [lexLe, h]

theorem lexLe_trans : ∀ a b c : Str,
    lexLe a b = true → lexLe b c = true → lexLe a c = true := by
  intro a
  induction a with
  | nil => intro b c _ _; rfl
  | cons x xs ih =>
    intro b c hab hbc
    cases b with
    | nil => simp [lexLe] at hab
    | cons y ys =>
      cases c with
      | nil => simp [lexLe] at hbc
      | cons z zs =>
        simp only [lexLe] at hab hbc ⊢
        rcases lt_trichotomy x y with hxy | hxy | hxy
        · rcases lt_trichotomy y z with hyz | hyz | hyz
          · simp [lt_trans hxy hyz]
          · subst hyz; simp [hxy]
          · rw [if_neg (asymm hyz), if_pos hyz] at hbc
            simp at hbc
        · subst hxy
          rcases lt_trichotomy x z with hxz | hxz | hxz
          · simp [hxz]
          · subst hxz
            simp only [lt_irrefl, if_false] at hab hbc ⊢
            exact ih ys zs hab hbc
          · rw [if_neg (asymm hxz), if_pos hxz] at hbc
            simp at hbc
        · rw [if_neg (asymm hxy), if_pos hxy] at hab
          simp at hab

theorem mem_insertL {x a : Str} : ∀ l : List Str,
    (x ∈ insertL a l ↔ x = a ∨ x ∈ l) := by
  intro l
  induction l with
  | nil => simp [insertL]
  | cons b bs ih =>
    rw [insertL]
    split
    · simp
    · simp only [List.mem_cons, ih]
      tauto

theorem perm_insertL (a : Str) : ∀ l : List Str,
    (insertL a l).Perm (a :: l) := by
  intro l
  induction l with
  | nil => simp [insertL]
  | cons b bs ih =>
    rw [insertL]
    split
    · exact List.Perm.refl _
    · exact (ih.cons b).trans (List.Perm.swap a b bs)

theorem sorted_insertL {a : Str} : ∀ {l : List Str},
    l.Sorted (fun u v => lexLe u v = true) →
    (insertL a l).Sorted (fun u v => lexLe u v = true) := by
  intro l
  induction l with
  | nil => intro _; simp [insertL]
  | cons b bs ih =>
    intro hs
    rw [List.sorted_cons] at hs
    rw [insertL]
    split
    case isTrue hab =>
      rw [List.sorted_cons]
      refine ⟨?_, List.sorted_cons.mpr hs⟩
      intro x hx
      rcases (List.mem_cons).mp hx with rfl | hx
      · exact hab
      · exact lexLe_trans a b x hab (hs.1 x hx)
    case isFalse hab =>
      have hba : lexLe b a = true := by
        rcases lexLe_total a b with h | h
        · exact absurd h hab
        · exact h
      rw [List.sorted_cons]
      refine ⟨?_, ih hs.2⟩
      intro x hx
      rcases (mem_insertL bs).mp hx with rfl | hx
      · exact hba
      · exact hs.1 x hx

theorem sorted_sortL : ∀ l : List Str,
    (sortL l).Sorted (fun u v => lexLe u v = true) := by
  intro l
  induction l with
  | nil => simp [sortL]
  | cons a as ih => exact sorted_insertL ih

theorem perm_sortL : ∀ l : List Str, (sortL l).Perm l := by
  intro l
  induction l with
  | nil => exact List.Perm.refl _
  | cons a as ih => exact (perm_insertL a (sortL as)).trans (ih.cons a)

theorem nodup_sortL {l : List Str} (h : l.Nodup) : (sortL l).Nodup :=
  (perm_sortL l).symm.nodup h

theorem mem_sortL {x : Str} {l : List Str} : x ∈ sortL l ↔ x ∈ l :=
  (perm_sortL l).mem_iff

theorem dedupFirstAux_mem : ∀ (seen ns : List Str) (x : Str),
    x ∈ dedupFirstAux seen ns ↔ x ∈ ns ∧ x ∉ seen := by
  intro seen ns
  induction ns generalizing seen with
  | nil => simp [dedupFirstAux]
  | cons n ns ih =>
    intro x
    rw [dedupFirstAux]
    split
    case isTrue hin =>
      rw [ih seen x]
      simp only [List.mem_cons]
      constructor
      · rintro ⟨hm, hns⟩; exact ⟨Or.inr hm, hns⟩
      · rintro ⟨rfl | hm, hns⟩
        · exact absurd hin hns
        · exact ⟨hm, hns⟩
    case isFalse hout =>
      simp only [List.mem_cons, ih (n :: seen) x]
      constructor
      · rintro (rfl | ⟨hm, hns⟩)
        · exact ⟨Or.inl rfl, hout⟩
        · simp only [List.mem_cons, not_or] at hns
          exact ⟨Or.inr hm, hns.2⟩
      · rintro ⟨rfl | hm, hns⟩
        · exact Or.inl rfl
        · by_cases hxn : x = n
          · exact Or.inl hxn
          · refine Or.inr ⟨hm, ?_⟩
            simp only [List.mem_cons, not_or]
            exact ⟨hxn, hns⟩

theorem dedupFirstAux_not_seen : ∀ (seen ns : List Str) (x : Str),
    x ∈ dedupFirstAux seen ns → x ∉ seen := by
  intro seen ns x hx
  exact ((dedupFirstAux_mem seen ns x).mp hx).2

theorem dedupFirstAux_nodup : ∀ (seen ns : List Str),
    (dedupFirstAux seen ns).Nodup := by
  intro seen ns
  induction ns generalizing seen with
  | nil => simp [dedupFirstAux]
  | cons n ns ih =>
    rw [dedupFirstAux]
    split
    · exact ih seen
    · rw [List.nodup_cons]
      refine ⟨fun hmem => ?_, ih (n :: seen)⟩
      have := dedupFirstAux_not_seen (n :: seen) ns n hmem
      simp at this

theorem dedupFirst_mem {ns : List Str} {x : Str} :
    x ∈ dedupFirst ns ↔ x ∈ ns := by
  rw [dedupFirst, dedupFirstAux_mem]
  simp

theorem dedupFirst_nodup (ns : List Str) : (dedupFirst ns).Nodup :=
  dedupFirstAux_nodup [] ns

/-! ## Claim C6 -/

/-- C6: the Comparison Engine computes `added` as the distinct names present
only in the head set, `removed` as the distinct names present only in the
base set and `unchanged` as the distinct names present in both, each list
duplicate-free and lexicographically sorted ascending; consequently
comparing a set against itself yields empty `added`/`removed` and
`unchanged` equal to the sorted distinct names of the set. -/
theorem C6_compare_sets :
    (∀ base head : ScanResult,
      (∀ n, n ∈ (runCompare base head).added ↔
        (n ∈ head.envVars.map EnvVar.name ∧ n ∉ base.envVars.map EnvVar.name)) ∧
      (∀ n, n ∈ (runCompare base head).removed ↔
        (n ∈ base.envVars.map EnvVar.name ∧ n ∉ head.envVars.map EnvVar.name)) ∧
      (∀ n, n ∈ (runCompare base head).unchanged ↔
        (n ∈ head.envVars.map EnvVar.name ∧ n ∈ base.envVars.map EnvVar.name)) ∧
      (runCompare base head).added.Sorted (fun u v => lexLe u v = true) ∧
      (runCompare base head).removed.Sorted (fun u v => lexLe u v = true) ∧
      (runCompare base head).unchanged.Sorted (fun u v => lexLe u v = true) ∧
      (runCompare base head).added.Nodup ∧
      (runCompare base head).removed.Nodup ∧
      (runCompare base head).unchanged.Nodup) ∧
    (∀ A : ScanResult,
      runCompare A A =
        { added := [], removed := [],
          unchanged := sortL (dedupFirst (A.envVars.map EnvVar.name)) }) := by
  constructor
  · intro base head
    refine ⟨?_, ?_, ?_, sorted_sortL _, sorted_sortL _, sorted_sortL _,
      nodup_sortL ((dedupFirst_nodup _).filter _),
      nodup_sortL ((dedupFirst_nodup _).filter _),
      nodup_sortL ((dedupFirst_nodup _).filter _)⟩
    · intro n
      rw [show (runCompare base head).added =
          sortL ((dedupFirst (head.envVars.map (·.name))).filter
            fun n => !decide (n ∈ dedupFirst (base.envVars.map (·.name))))
        from rfl]
      rw [mem_sortL, List.mem_filter]
      simp [dedupFirst_mem]
    · intro n
      rw [show (runCompare base head).removed =
          sortL ((dedupFirst (base.envVars.map (·.name))).filter
            fun n => !decide (n ∈ dedupFirst (head.envVars.map (·.name))))
        from rfl]
      rw [mem_sortL, List.mem_filter]
      simp [dedupFirst_mem]
    · intro n
      rw [show (runCompare base head).unchanged =
          sortL ((dedupFirst (head.envVars.map (·.name))).filter
            fun n => decide (n ∈ dedupFirst (base.envVars.map (·.name))))
        from rfl]
      rw [mem_sortL, List.mem_filter]
      simp [dedupFirst_mem]
  · intro A
    have h1 : ((dedupFirst (A.envVars.map (·.name))).filter
        fun n => !decide (n ∈ dedupFirst (A.envVars.map (·.name)))) = [] := by
      rw [List.filter_eq_nil_iff]
      intro a ha
      simp [ha]
    have h2 : ((dedupFirst (A.envVars.map (·.name))).filter
        fun n => decide (n ∈ dedupFirst (A.envVars.map (·.name)))) =
        dedupFirst (A.envVars.map (·.name)) := by
      rw [List.filter_eq_self]
      intro a ha
      simp [ha]
    show CompareResult.mk _ _ _ = _
    rw [h1, h2]
    rfl

/-! ## Claim C2 -/

/-- C2 counterexample: in the workload `env:` scanner a blank line *does*
terminate the section (`BAR` is lost once a blank line precedes it), and in
the ConfigMap scanner a list-continuation line (`- b`) at the section indent
*does* terminate the `data:` section (`B_KEY` is lost) — the claim asserts
neither can happen in any of the indentation-scoped block scans. -/
theorem C2_counterexample :
    (scanK8sWorkload (str "env:\n  - name: FOO\n\n  - name: BAR")
      (str "f") (str "Deployment")).map EnvVar.name = [str "FOO"] ∧
    (scanK8sWorkload (str "env:\n  - name: FOO\n  - name: BAR")
      (str "f") (str "Deployment")).map EnvVar.name
      = [str "FOO", str "BAR"] ∧
    (scanConfigMap (str "data:\n  A_KEY: x\n- b\n  B_KEY: y")
      (str "f")).map EnvVar.name = [str "A_KEY"] ∧
    (scanConfigMap (str "data:\n  A_KEY: x\n  B_KEY: y")
      (str "f")).map EnvVar.name = [str "A_KEY", str "B_KEY"] := by
  refine ⟨by decide, by decide, by decide, by decide⟩

/-- C2 (amended): in the ConfigMap and Secret scans, blank lines and
`#`-comment lines never terminate the open section, and the section ends
exactly at a non-blank, non-comment line at same-or-lesser indent (whether
or not it is a list continuation); in the workload `env:` scan the section
ends exactly at a line at same-or-lesser indent whose trimmed content does
not start with `-` — including blank and comment lines, and in particular a
blank line always closes an open `env:` section. -/
theorem C2_section_boundaries :
    (∀ (st : CMState) (l : Str), st.inData = true →
      (trimStart l).isEmpty = true ∨ strStartsWith (trimStart l) (str "#") = true →
      (cmNextState st l).inData = true) ∧
    (∀ (st : SecState) (l : Str), (st.inData || st.inStringData) = true →
      (trimStart l).isEmpty = true ∨ strStartsWith (trimStart l) (str "#") = true →
      ((secNextState st l).inData || (secNextState st l).inStringData) = true) ∧
    (∀ (st : CMState) (l : Str), st.inData = true →
      ((cmNextState st l).inData = false ↔
        (strStartsWith (trimStart l) (str "data:") = false ∧
         l.length - (trimStart l).length ≤ st.dataIndent ∧
         (trimStart l).isEmpty = false ∧
         strStartsWith (trimStart l) (str "#") = false))) ∧
    (∀ (st : SecState) (l : Str), (st.inData || st.inStringData) = true →
      (((secNextState st l).inData || (secNextState st l).inStringData) = false ↔
        (strStartsWith (trimStart l) (str "data:") = false ∧
         strStartsWith (trimStart l) (str "stringData:") = false ∧
         l.length - (trimStart l).length ≤ st.dataIndent ∧
         (trimStart l).isEmpty = false ∧
         strStartsWith (trimStart l) (str "#") = false))) ∧
    (∀ (st : WLState) (l : Str), st.inEnv = true →
      ((wlNextState st l).inEnv = false ↔
        (strStartsWith (trimStart l) (str "env:") = false ∧
         l.length - (trimStart l).length ≤ st.currentIndent ∧
         strStartsWith (trimStart l) (str "-") = false))) ∧
    (∀ st : WLState, st.inEnv = true → (wlNextState st []).inEnv = false) := by
  refine ⟨?_, ?_, ?_, ?_, ?_, ?_⟩
  · intro st l hin hbc
    simp only [cmNextState]
    split_ifs with h1 h2
    · rfl
    · exfalso
      simp only [Bool.and_eq_true, Bool.not_eq_true'] at h2
      rcases hbc with hb | hb
      · rw [h2.1.2] at hb; exact Bool.noConfusion hb
      · rw [h2.2] at hb; exact Bool.noConfusion hb
    · exact hin
  · intro st l hin hbc
    simp only [secNextState]
    split_ifs with h1 h2 h3
    · rfl
    · rfl
    · exfalso
      simp only [Bool.and_eq_true, Bool.not_eq_true'] at h3
      rcases hbc with hb | hb
      · rw [h3.1.2] at hb; exact Bool.noConfusion hb
      · rw [h3.2] at hb; exact Bool.noConfusion hb
    · exact hin
  · intro st l hin
    simp only [cmNextState]
    split_ifs with h1 h2
    · refine iff_of_false (by simp) ?_
      rintro ⟨hd, -⟩
      rw [hd] at h1
      exact Bool.noConfusion h1
    · refine iff_of_true (by simp) ?_
      simp only [Bool.and_eq_true, Bool.not_eq_true', decide_eq_true_eq] at h2
      exact ⟨Bool.eq_false_iff.mpr h1, h2.1.1.2, h2.1.2, h2.2⟩
    · refine iff_of_false (by simp [hin]) ?_
      rintro ⟨hd, hle, hne, hnc⟩
      exact h2 (by
        simp only [Bool.and_eq_true, Bool.not_eq_true', decide_eq_true_eq]
        exact ⟨⟨⟨hin, hle⟩, hne⟩, hnc⟩)
  · intro st l hin
    simp only [secNextState]
    split_ifs with h1 h2 h3
    · refine iff_of_false (by simp) ?_
      rintro ⟨hd, -⟩
      rw [hd] at h1
      exact Bool.noConfusion h1
    · refine iff_of_false (by simp) ?_
      rintro ⟨-, hsd, -⟩
      rw [hsd] at h2
      exact Bool.noConfusion h2
    · refine iff_of_true (by simp) ?_
      simp only [Bool.and_eq_true, Bool.not_eq_true', decide_eq_true_eq] at h3
      exact ⟨Bool.eq_false_iff.mpr h1, Bool.eq_false_iff.mpr h2,
        h3.1.1.2, h3.1.2, h3.2⟩
    · refine iff_of_false (by simp [Bool.or_eq_false_iff, hin]) ?_
      rintro ⟨hd, hsd, hle, hne, hnc⟩
      exact h3 (by
        simp only [Bool.and_eq_true, Bool.not_eq_true', decide_eq_true_eq]
        exact ⟨⟨⟨hin, hle⟩, hne⟩, hnc⟩)
  · intro st l hin
    simp only [wlNextState]
    split_ifs with h1 h2
    · refine iff_of_false (by simp) ?_
      rintro ⟨he, -⟩
      rw [he] at h1
      exact Bool.noConfusion h1
    · refine iff_of_true (by simp) ?_
      simp only [Bool.and_eq_true, Bool.not_eq_true', decide_eq_true_eq] at h2
      exact ⟨Bool.eq_false_iff.mpr h1, h2.1.2, h2.2⟩
    · refine iff_of_false (by simp [hin]) ?_
      rintro ⟨he, hle, hnd⟩
      exact h2 (by
        simp only [Bool.and_eq_true, Bool.not_eq_true', decide_eq_true_eq]
        exact ⟨⟨hin, hle⟩, hnd⟩)
  · intro st hin
    simp [wlNextState, trimStart, strStartsWith, hin]

/-- C2 witness: the amended boundary rules applied to concrete lines — a
comment line inside a ConfigMap `data:` section leaves it open, and a blank
line inside a workload `env:` section closes it. -/
theorem C2_section_boundaries_witness :
    (cmNextState ⟨true, 2⟩ (str "  # note")).inData = true ∧
    (wlNextState ⟨true, 8⟩ []).inEnv = false :=
  ⟨C2_section_boundaries.1 ⟨true, 2⟩ (str "  # note") (by decide)
      (Or.inr (by decide)),
    C2_section_boundaries.2.2.2.2.2 ⟨true, 8⟩ (by decide)⟩

/-! ## Claim C5 -/

/-- C5: the claim's decode-failure fallback is dead code.  Node's base64
decoding and UTF-8 conversion are total and lenient, so the `catch` in
`scanSecret` that would preserve the raw value can never run: the
undecodable value `zz` of `TOKEN_A` is leniently decoded to the single
byte `0xCF` and rendered as the replacement character `U+FFFD` — mangled,
not preserved verbatim as the claim (and the source's own
`Keep as-is if decode fails` comment) require.  The entry is still emitted
(never dropped, never a crash), and a well-formed value such as
`PASSWORD: cGFzcw==` decodes to `pass` with `valueSource = k8s-secret`. -/
theorem C5_secret_lenient_decode :
    scanSecret (str "data:\n  TOKEN_A: zz") (str "f") =
      [{ name := str "TOKEN_A", file := str "f", line := 2,
         language := str "kubernetes", pattern := str "secret",
         value := some [Char.ofNat 65533],
         valueSource := some ValueSource.k8sSecret }] ∧
    ([Char.ofNat 65533] : Str) ≠ str "zz" ∧
    scanSecret (str "data:\n  PASSWORD: cGFzcw==") (str "f") =
      [{ name := str "PASSWORD", file := str "f", line := 2,
         language := str "kubernetes", pattern := str "secret",
         value := some (str "pass"),
         valueSource := some ValueSource.k8sSecret }] := by
  exact ⟨by decide, by decide, by decide⟩


/-! ## Character and string lemmas for the dotenv scanner -/

theorem ws_cases {c : Char} (h : c.isWhitespace = true) :
    c = ' ' ∨ c = '\t' ∨ c = '\r' ∨ c = '\n' := by
  simp only [Char.isWhitespace, Bool.or_eq_true, decide_eq_true_eq] at h
  tauto

theorem not_ws_of_upper {c : Char} (h : c.isUpper = true) :
    c.isWhitespace = false := by
  cases hw : c.isWhitespace
  · rfl
  · exfalso
    rcases ws_cases hw with rfl | rfl | rfl | rfl <;> exact absurd h (by decide)

theorem not_ws_of_nameChar {c : Char} (h : isNameChar c = true) :
    c.isWhitespace = false := by
  cases hw : c.isWhitespace
  · rfl
  · exfalso
    rcases ws_cases hw with rfl | rfl | rfl | rfl <;> exact absurd h (by decide)

theorem upper_ne {c d : Char} (h : c.isUpper = true) (hd : d.isUpper = false) :
    c ≠ d := by
  intro he
  rw [he] at h
  rw [h] at hd
  exact Bool.noConfusion hd

theorem strStartsWith_single {s : Str} {c : Char} :
    strStartsWith s [c] = true ↔ s.head? = some c := by
  cases s with
  | nil => simp [strStartsWith]
  | cons a as => simp [strStartsWith]

theorem strStartsWith_cons_false {a : Char} {s : Str} {d : Char} {p : Str}
    (h : a ≠ d) : strStartsWith (a :: s) (d :: p) = false := by
  simp [strStartsWith, h]

theorem jsTrim_eq_self {s : Str}
    (h1 : ∀ c, s.head? = some c → c.isWhitespace = false)
    (h2 : ∀ c, s.getLast? = some c → c.isWhitespace = false) :
    jsTrim s = s := by
  cases s with
  | nil => rfl
  | cons a as =>
    have ha : a.isWhitespace = false := h1 a rfl
    rw [jsTrim, List.dropWhile_cons_of_neg (by simp [ha])]
    rcases hrev : (a :: as).reverse with _ | ⟨b, bs⟩
    · exact absurd hrev (by simp)
    · have hb : b.isWhitespace = false := by
        refine h2 b ?_
        rw [← List.head?_reverse, hrev]
        rfl
      have hd : (b :: bs).dropWhile Char.isWhitespace = b :: bs :=
        List.dropWhile_cons_of_neg (by simp [hb])
      rw [hd, ← hrev, List.reverse_reverse]

theorem takeWhile_append_stop {p : Char → Bool} :
    ∀ (xs : Str) {y : Char} (rest : Str),
    (∀ x ∈ xs, p x = true) → p y = false →
    (xs ++ y :: rest).takeWhile p = xs ∧
    (xs ++ y :: rest).dropWhile p = y :: rest := by
  intro xs y rest hall hy
  induction xs with
  | nil =>
    simp only [List.nil_append]
    exact ⟨List.takeWhile_cons_of_neg (by simp [hy]),
      List.dropWhile_cons_of_neg (by simp [hy])⟩
  | cons a as ih =>
    have ha : p a = true := hall a (List.mem_cons_self a as)
    have ih' := ih (fun x hx => hall x (List.mem_cons_of_mem a hx))
    constructor
    · rw [List.cons_append, List.takeWhile_cons_of_pos ha, ih'.1]
    · rw [List.cons_append, List.dropWhile_cons_of_pos ha, ih'.2]

/-! ## Claim C3 -/

/-- C3: the invariant `valueSource present iff value present` is broken by
the dotenv scanner: the line `API_DB=` (an empty value) yields an occurrence
with no `value` but with `valueSource = dotenv`.  Every other occurrence
constructor in the codebase guards `valueSource` on the value's presence, so
the claim reflects the intended invariant and the dotenv emitter is the
slip. -/
theorem C3_dotenv_violation :
    scanDotEnvFile (str "f") (str "API_DB=") =
      [{ name := str "API_DB", file := str "f", line := 1,
         language := str "dotenv", pattern := str "definition",
         value := none, valueSource := some ValueSource.dotenv }] ∧
    ((scanDotEnvFile (str "f") (str "API_DB=")).map
      fun ev => (ev.value, ev.valueSource)) =
      [(none, some ValueSource.dotenv)] := by
  exact ⟨by decide, by decide⟩

/-! ## Claim C7 -/

/-- C7 counterexample: for the raw value `␣"a#b"` (a quoted pair preceded by
a space) the scanner produces the value `a` — the quotes are stripped against
the *trimmed* value but the inline-comment truncation still applies because
the *untrimmed* raw value does not begin with a quote.  The claim's rule
predicts `a#b` (quoted reading: quotes stripped, content literal) or `"a`
(unquoted reading: truncate the trimmed value at `#`), both wrong. -/
theorem C7_counterexample :
    (scanDotEnvFile (str "f") (str "KEY= \"a#b\"")).map (fun e => e.value) =
      [some (str "a")] ∧
    str "a" ≠ str "a#b" ∧
    str "a" ≠ str "\"a" := by
  exact ⟨by decide, by decide, by decide⟩

/-- C7 (amended): quote stripping is decided on the trimmed value while
comment stripping is suppressed only when the untrimmed raw value begins
with a quote: (i) when the raw value itself is a matched quote pair the
quotes are stripped and the content kept literally, with no comment
stripping inside the quotes; and (ii) a line `NAME=value` whose value has no
quotes, no `#` and no whitespace yields exactly one occurrence with that
literal value and `valueSource = dotenv`. -/
theorem C7_dotenv_value_rules :
    (∀ raw : Str, isQuotedPair raw = true → parseEnvValue raw = sliceEnds raw) ∧
    (∀ (f : Str) (c : Char) (cs v : Str),
      c.isUpper = true →
      (∀ x ∈ cs, isNameChar x = true) →
      v ≠ [] →
      (∀ x ∈ v, x.isWhitespace = false) →
      '#' ∉ v → '"' ∉ v → '\x27' ∉ v →
      scanDotEnvFile f (c :: cs ++ '=' :: v) =
        [{ name := c :: cs, file := f, line := 1,
           language := str "dotenv", pattern := str "definition",
           value := some v, valueSource := some ValueSource.dotenv }]) := by
  constructor
  · intro raw hq
    have hq' := hq
    simp only [isQuotedPair, Bool.or_eq_true, Bool.and_eq_true] at hq
    have hhead : raw.head? = some '"' ∨ raw.head? = some '\x27' := by
      rcases hq with ⟨h1, -⟩ | ⟨h1, -⟩
      · exact Or.inl (strStartsWith_single.mp h1)
      · exact Or.inr (strStartsWith_single.mp h1)
    have hlast : raw.getLast? = some '"' ∨ raw.getLast? = some '\x27' := by
      rcases hq with ⟨-, h2⟩ | ⟨-, h2⟩
      · left
        rw [← List.head?_reverse]
        exact strStartsWith_single.mp h2
      · right
        rw [← List.head?_reverse]
        exact strStartsWith_single.mp h2
    have htrim : jsTrim raw = raw := by
      refine jsTrim_eq_self ?_ ?_
      · intro c hc
        rcases hhead with h | h <;>
          (rw [hc] at h; injection h with h; rw [h]; decide)
      · intro c hc
        rcases hlast with h | h <;>
          (rw [hc] at h; injection h with h; rw [h]; decide)
    have hsw : strStartsWith raw (str "\"") = true ∨
        strStartsWith raw (str "\x27") = true := by
      rcases hq with ⟨h1, -⟩ | ⟨h1, -⟩
      · exact Or.inl h1
      · exact Or.inr h1
    rcases hsw with h | h <;> simp [parseEnvValue, htrim, hq', h]
  · intro f c cs v hc hcs hv hvw hnh hnq1 hnq2
    obtain ⟨x, xs, rfl⟩ : ∃ x xs, v = x :: xs := by
      cases v with
      | nil => exact absurd rfl hv
      | cons x xs => exact ⟨x, xs, rfl⟩
    have hLeq : (c :: cs) ++ '=' :: x :: xs = c :: (cs ++ '=' :: x :: xs) :=
      List.cons_append c cs ('=' :: x :: xs)
    -- the single line survives the newline split
    have hsplit : (c :: (cs ++ '=' :: x :: xs)).splitOn '\n' =
        [c :: (cs ++ '=' :: x :: xs)] := by
      show List.splitOnP (· == '\n') _ = _
      refine List.splitOnP_eq_single _ _ ?_
      intro y hy
      simp only [beq_iff_eq]
      intro he
      subst he
      rcases List.mem_cons.mp hy with he | hy
      · exact absurd hc (by rw [← he]; decide)
      · rcases List.mem_append.mp hy with hy | hy
        · exact absurd (hcs _ hy) (by decide)
        · rcases List.mem_cons.mp hy with he | hy
          · exact absurd he (by decide)
          · exact absurd (hvw _ hy) (by decide)
    -- trimming the line is the identity
    have htrimL : jsTrim (c :: (cs ++ '=' :: x :: xs)) =
        c :: (cs ++ '=' :: x :: xs) := by
      refine jsTrim_eq_self ?_ ?_
      · intro ch hch
        injection hch with hch
        rw [← hch]
        exact not_ws_of_upper hc
      · intro ch hch
        rw [show c :: (cs ++ '=' :: x :: xs) = (c :: cs ++ ['=']) ++ x :: xs
            by simp, List.getLast?_append] at hch
        have hm : ch ∈ x :: xs := by
          refine List.mem_of_getLast?_eq_some ?_
          rcases hg : (x :: xs).getLast? with _ | g
          · exact absurd hg (by simp)
          · rw [hg] at hch
            simpa using hch
        exact hvw ch hm
    -- the line is neither blank nor a comment
    have hhash : strStartsWith (c :: (cs ++ '=' :: x :: xs)) (str "#") = false := by
      rw [show str "#" = ['#'] from rfl]
      exact strStartsWith_cons_false (upper_ne hc (by decide))
    -- the regex captures the name and the raw value
    have hmel : matchEnvLine (c :: (cs ++ '=' :: x :: xs)) =
        some (c :: cs, x :: xs) := by
      have hexp : strStartsWith (c :: (cs ++ '=' :: x :: xs))
          (str "export") = false := by
        rw [show str "export" = ['e', 'x', 'p', 'o', 'r', 't'] from rfl]
        exact strStartsWith_cons_false (upper_ne hc (by decide))
      have htw := takeWhile_append_stop cs (x :: xs) hcs
        (show isNameChar '=' = false by decide)
      simp [matchEnvLine, takeName, hexp, hc, htw.1, htw.2]
    -- the value parses to itself
    have hx1 : x ≠ '"' := fun he => hnq1 (he ▸ List.mem_cons_self x xs)
    have hx2 : x ≠ '\x27' := fun he => hnq2 (he ▸ List.mem_cons_self x xs)
    have hsw1 : strStartsWith (x :: xs) (str "\"") = false := by
      rw [show str "\"" = ['"'] from rfl]
      exact strStartsWith_cons_false hx1
    have hsw2 : strStartsWith (x :: xs) (str "\x27") = false := by
      rw [show str "\x27" = ['\x27'] from rfl]
      exact strStartsWith_cons_false hx2
    have htrimv : jsTrim (x :: xs) = x :: xs := by
      refine jsTrim_eq_self ?_ ?_
      · intro ch hch
        injection hch with hch
        rw [← hch]
        exact hvw x (List.mem_cons_self x xs)
      · intro ch hch
        exact hvw ch (List.mem_of_getLast?_eq_some hch)
    have hqp : isQuotedPair (x :: xs) = false := by
      simp [isQuotedPair, hsw1, hsw2]
    have hfi : (x :: xs).findIdx? (· = '#') = none := by
      rw [List.findIdx?_eq_none_iff]
      intro y hy
      simp only [decide_eq_false_iff_not]
      exact fun he => hnh (he ▸ hy)
    have hpev : parseEnvValue (x :: xs) = x :: xs := by
      simp [parseEnvValue, htrimv, hqp, hsw1, hsw2, hfi]
    -- assemble the scan of the single line
    rw [show scanDotEnvFile f ((c :: cs) ++ '=' :: x :: xs) =
        scanDotEnvLines f 0
          (((c :: cs) ++ '=' :: x :: xs).splitOn '\n') from rfl, hLeq, hsplit]
    simp [scanDotEnvLines, htrimL, hhash, hmel, hpev]

/-- C7 witness: the amended rules applied to concrete inputs — a quoted raw
value keeps its `#` content, and a plain `KEY=value` line yields the literal
value tagged `dotenv`. -/
theorem C7_dotenv_value_rules_witness :
    parseEnvValue (str "\"x#y\"") = sliceEnds (str "\"x#y\"") ∧
    scanDotEnvFile (str "f") (str "KEY=value") =
      [{ name := str "KEY", file := str "f", line := 1,
         language := str "dotenv", pattern := str "definition",
         value := some (str "value"),
         valueSource := some ValueSource.dotenv }] :=
  ⟨C7_dotenv_value_rules.1 (str "\"x#y\"") (by decide),
    C7_dotenv_value_rules.2 (str "f") 'K' (str "EY") (str "value")
      (by decide) (by decide) (by decide) (by decide) (by decide)
      (by decide) (by decide)⟩

/-! ## Lemmas about the placeholder scanner -/

theorem phMatchAt_no_rbrace {s nm : Str} {dv : Str} {r : Str}
    (h : phMatchAt s = some (nm, some dv, r)) : rbrace ∉ dv := by
  match s with
  | [] => simp [phMatchAt] at h
  | [a] => simp [phMatchAt] at h
  | a :: b :: restAll =>
    simp only [phMatchAt] at h
    split at h
    case isFalse => exact absurd h (by simp)
    case isTrue =>
      match htn : takeName restAll with
      | none => rw [htn] at h; exact absurd h (by simp)
      | some (nm', r1) =>
        rw [htn] at h
        match r1 with
        | [] => exact absurd h (by simp)
        | e :: r2 =>
          simp only at h
          split at h
          · simp at h
          · split at h
            · match hm : r2.dropWhile (· ≠ rbrace) with
              | [] => rw [hm] at h; exact absurd h (by simp)
              | b2 :: r3 =>
                rw [hm] at h
                simp only [Option.some.injEq, Prod.mk.injEq] at h
                obtain ⟨-, hdv, -⟩ := h
                rw [← hdv]
                intro hmem
                have := List.mem_takeWhile_imp hmem
                simp at this
            · exact absurd h (by simp)

theorem findPHFuel_no_rbrace : ∀ (fuel : Nat) (s nm : Str) (d : Option Str),
    (nm, d) ∈ findPHFuel fuel s → ∀ dv, d = some dv → rbrace ∉ dv := by
  intro fuel
  induction fuel with
  | zero =>
    intro s nm d hmem
    cases s <;> simp [findPHFuel] at hmem
  | succ fuel ih =>
    intro s nm d hmem
    cases s with
    | nil => simp [findPHFuel] at hmem
    | cons c cs =>
      rw [findPHFuel] at hmem
      rcases hpm : phMatchAt (c :: cs) with _ | ⟨nm', d', rest⟩
      · rw [hpm] at hmem
        exact ih cs nm d hmem
      · rw [hpm] at hmem
        rcases List.mem_cons.mp hmem with he | hmem
        · injection he with h1 h2
          subst h2
          intro dv hdv
          subst hdv
          exact phMatchAt_no_rbrace hpm
        · exact ih rest nm d hmem

/-! ## Claim C8 -/

/-- C8 counterexample: the token `${PORT:}` carries a captured (empty)
default segment — the occurrence's `value` field is present (`some ""`) —
yet `valueSource` is absent and `isDefault` is `false`, because the code
tests JavaScript truthiness (`defaultValue ?`/`!!defaultValue`) rather than
capture: the claim's `valueSource=properties iff a default segment was
captured` and `isDefault=true in that case` both fail. -/
theorem C8_counterexample :
    scanPropertyFile (str "f") (str "$\x7bPORT:\x7d") =
      [{ name := str "PORT", file := str "f", line := 1,
         language := str "properties", pattern := str "spring.placeholder",
         value := some [], valueSource := none, isDefault := some false }] := by
  decide

/-- C8 (amended): every occurrence emitted by the property scanner is tagged
`language=properties` and `pattern=spring.placeholder`, has
`valueSource=properties` precisely when a *non-empty* default was captured,
has `isDefault=true` precisely in that same case, and every captured default
contains no `}` (the capture stops at the first `}`); one occurrence is
emitted per regex match, and the nested `${A:${B:d}}` yields exactly one
occurrence with the truncated outer default `${B:d`. -/
theorem C8_placeholder_occurrences :
    (∀ (f : Str) (n : Nat) (lines : List Str) (ev : EnvVar),
      ev ∈ scanPropertyLines f n lines →
      ev.language = str "properties" ∧
      ev.pattern = str "spring.placeholder" ∧
      (ev.valueSource = some ValueSource.properties ↔
        ∃ dv, ev.value = some dv ∧ dv ≠ []) ∧
      (ev.isDefault = some true ↔ ∃ dv, ev.value = some dv ∧ dv ≠ []) ∧
      (∀ dv, ev.value = some dv → rbrace ∉ dv)) ∧
    (∀ (f : Str) (n : Nat) (lines : List Str),
      (scanPropertyLines f n lines).length =
        (lines.map fun l => (findPH l).length).sum) ∧
    findPH (str "$\x7bA:$\x7bB:d\x7d\x7d") =
      [(str "A", some (str "$\x7bB:d"))] := by
  refine ⟨?_, ?_, by decide⟩
  · intro f n lines
    induction lines generalizing n with
    | nil => intro ev hmem; simp [scanPropertyLines] at hmem
    | cons l ls ih =>
      intro ev hmem
      rw [scanPropertyLines] at hmem
      rcases List.mem_append.mp hmem with hmem | hmem
      · rcases List.mem_map.mp hmem with ⟨m, hm, rfl⟩
        obtain ⟨nm, d⟩ := m
        refine ⟨rfl, rfl, ?_, ?_, ?_⟩
        · cases d with
          | none => simp
          | some dv =>
            cases dv with
            | nil => simp
            | cons e es =>
              simp only [List.isEmpty_cons, if_false]
              constructor
              · intro _
                exact ⟨e :: es, rfl, by simp⟩
              · intro _
                rfl
        · cases d with
          | none => simp
          | some dv =>
            cases dv with
            | nil => simp
            | cons e es =>
              simp only [List.isEmpty_cons]
              constructor
              · intro _
                exact ⟨e :: es, rfl, by simp⟩
              · intro _
                rfl
        · intro dv hdv
          simp only at hdv
          exact findPHFuel_no_rbrace l.length l nm d hm dv hdv
      · exact ih (n + 1) ev hmem
  · intro f n lines
    induction lines generalizing n with
    | nil => simp [scanPropertyLines]
    | cons l ls ih =>
      rw [scanPropertyLines]
      simp [ih (n + 1)]

/-- A concrete occurrence produced by the placeholder scanner. -/
def occPlaceholder : EnvVar :=
  { name := str "DATABASE_URL", file := str "fileP", line := 1,
    language := str "properties", pattern := str "spring.placeholder",
    value := some (str "postgres://localhost"),
    valueSource := some ValueSource.properties, isDefault := some true }

/-- C8 witness: the amended occurrence invariants applied to the concrete
scan of `${DATABASE_URL:postgres://localhost}`. -/
theorem C8_placeholder_occurrences_witness :
    occPlaceholder.language = str "properties" ∧
    occPlaceholder.pattern = str "spring.placeholder" ∧
    (occPlaceholder.valueSource = some ValueSource.properties ↔
      ∃ dv, occPlaceholder.value = some dv ∧ dv ≠ []) ∧
    (occPlaceholder.isDefault = some true ↔
      ∃ dv, occPlaceholder.value = some dv ∧ dv ≠ []) ∧
    (∀ dv, occPlaceholder.value = some dv → rbrace ∉ dv) :=
  C8_placeholder_occurrences.1 (str "fileP") 0
    [str "$\x7bDATABASE_URL:postgres://localhost\x7d"] occPlaceholder
    (by decide)

end EnvScan
